import Mathlib

/-!
Verification development for the GiantMess grain pipeline.

Shallow embedding of `src/ternary_crush.py` and `src/axiom_validator.py`.
Python floats are modelled as exact rationals (`ℚ`); the float literals
`0.30`, `0.20`, `0.25`, `0.6`, `0.7`, `0.75` are modelled by the rationals
they denote.  Python byte arrays are modelled as lists of naturals (one
entry per byte) and Python's bitwise operators by the corresponding
operations on `Nat`.  Code that can raise an exception is modelled with
`Option`: `none` means the Python call raised.

The data entities `PhantomCandidate` and `GrainMetadata` are imported by
the sources from `shannon_grain`, a module of this repository that is not
part of the provided sources; their fields, and the derived
`avg_confidence`, are modelled from the spec (§3 of spec.md).
-/

namespace GiantMess

/-- Modelled from the spec: the `PhantomCandidate` record of the missing
`shannon_grain` module (spec §3): identity, owning partition, fact-id set,
hit count, confidence history, query concepts, cycle consistency, status,
creation stamp and epistemic level. -/
structure PhantomCandidate where
  phantomId : String
  cartridgeId : String
  factIds : Finset ℕ
  hitCount : ℕ
  confidenceScores : List ℚ
  queryConcepts : List String
  cycleConsistency : ℚ
  status : String
  createdAt : String
  epistemicLevel : ℕ
deriving DecidableEq

/-- Modelled from the spec: `avg_confidence` of the missing `shannon_grain`
module — the mean of `confidence_scores`, degrading to the default `0.0`
on an empty score sequence (spec §3 and §7). -/
def PhantomCandidate.avgConfidence (p : PhantomCandidate) : ℚ :=
  match p.confidenceScores with
  | [] => 0
  | xs => xs.sum / xs.length

/-- `TernaryWeight` from `ternary_crush.py`: a single ternary weight. -/
structure TernaryWeight where
  position : ℕ
  value : ℤ
  confidence : ℚ
  sources : List String
deriving DecidableEq

/-- `TernaryCrush.__init__`: the crusher holds the bit budget and the
threshold used by vector-based inference. -/
structure TernaryCrush where
  numBits : ℕ
  confidenceThreshold : ℚ
deriving DecidableEq

/-- The default crusher configuration (`num_bits=256`,
`confidence_threshold=0.7`). -/
def TernaryCrush.default : TernaryCrush := ⟨256, 7/10⟩

/-- `statistics.mean` over rationals (exact model of the float mean). -/
def listMean (xs : List ℚ) : ℚ := xs.sum / xs.length

/-- `statistics.variance` (sample variance, denominator `n - 1`) over
rationals; only used behind length-≥-2 guards, as in the sources. -/
def sampleVariance (xs : List ℚ) : ℚ :=
  let m := listMean xs
  (xs.map fun x => (x - m) ^ 2).sum / ((xs.length : ℚ) - 1)

/-- `TernaryCrush._infer_synthetic`: heuristic weights from the candidate's
aggregate confidence.  The first `int(num_bits * 0.30)` positions get value
`+1`, the next `int(num_bits * 0.20)` get `-1`, the rest are void.  Python's
iteration over the `fact_ids` set is modelled in ascending id order. -/
def inferSynthetic (c : TernaryCrush) (phantom : PhantomCandidate) :
    List TernaryWeight :=
  let avgConf := phantom.avgConfidence
  let positiveCount := c.numBits * 30 / 100
  let negativeCount := c.numBits * 20 / 100
  ((List.range positiveCount).map fun i =>
    ⟨i, 1, avgConf + 5/100,
     (phantom.factIds.sort (· ≤ ·)).map fun fid => "fact_" ++ toString fid⟩)
  ++ ((List.range' positiveCount negativeCount).map fun i =>
    ⟨i, -1, 1 - avgConf,
     (phantom.factIds.sort (· ≤ ·)).map fun fid =>
       "contradiction_" ++ toString fid⟩)
  ++ ((List.range' (positiveCount + negativeCount)
        (c.numBits - (positiveCount + negativeCount))).map fun i =>
    ⟨i, 0, 0, []⟩)

/-- One enumerate step of `_infer_from_vectors`'s thresholding loop. -/
def thresholdWeight (threshold : ℚ) (position : ℕ) (value : ℚ) :
    TernaryWeight :=
  if value > threshold then ⟨position, 1, min 1 value, []⟩
  else if value < -threshold then ⟨position, -1, min 1 |value|, []⟩
  else ⟨position, 0, 0, []⟩

/-- One iteration of the aggregation loop of `_infer_from_vectors`:
`aggregated[i] += val * weight` over one `(vector, confidence)` pair. -/
def aggregateStep (totalConfidence : ℚ) (numVectors : ℕ) (acc : List ℚ)
    (vc : List ℚ × ℚ) : List ℚ :=
  let weight := if totalConfidence > 0 then vc.2 / totalConfidence
                else 1 / (numVectors : ℚ)
  acc.zipWith (fun a val => a + val * weight) vc.1

/-- The confidence-weighted aggregation of `_infer_from_vectors`. -/
def aggregateVectors (numBits : ℕ) (vectors : List (List ℚ))
    (confidences : List ℚ) : List ℚ :=
  (vectors.zip confidences).foldl
    (aggregateStep confidences.sum vectors.length)
    (List.replicate numBits (0 : ℚ))

/-- `TernaryCrush._infer_from_vectors`: aggregate the observation vectors
weighted by confidence, then threshold each dimension to a ternary weight.
`none` models the `ValueError` raised on a dimension mismatch. -/
def inferFromVectors (c : TernaryCrush) (vectors : List (List ℚ))
    (confidences : List ℚ) : Option (List TernaryWeight) :=
  if vectors = [] then some []
  else if vectors.any fun v => v.length ≠ c.numBits then none
  else
    some ((aggregateVectors c.numBits vectors confidences).enum.map fun pv =>
      thresholdWeight c.confidenceThreshold pv.1 pv.2)

/-- `TernaryCrush.infer_weights`: explicit vectors are used when the
argument is a non-empty list (Python truthiness), otherwise the synthetic
heuristic runs.  `none` models a raised exception. -/
def inferWeights (c : TernaryCrush) (phantom : PhantomCandidate)
    (observationVectors : Option (List (List ℚ))) :
    Option (List TernaryWeight) :=
  match observationVectors with
  | some vs =>
      if vs ≠ [] then inferFromVectors c vs phantom.confidenceScores
      else some (inferSynthetic c phantom)
  | none => some (inferSynthetic c phantom)

/-- `bits_pos[byte_idx] |= (1 << bit_idx)` for the bit at `pos`:
set one bit of a byte array. -/
def setBitAt (arr : List ℕ) (pos : ℕ) : List ℕ :=
  arr.set (pos / 8) (arr.getD (pos / 8) 0 ||| 1 <<< (pos % 8))

/-- `(arr[byte_idx] >> bit_idx) & 1` for the bit at `pos`. -/
def getBit (arr : List ℕ) (pos : ℕ) : ℕ :=
  (arr.getD (pos / 8) 0 >>> (pos % 8)) &&& 1

/-- One loop iteration of `slice_to_bits`. -/
def sliceStep (st : List ℕ × List ℕ) (w : TernaryWeight) : List ℕ × List ℕ :=
  if w.value = 1 then (setBitAt st.1 w.position, st.2)
  else if w.value = -1 then (st.1, setBitAt st.2 w.position)
  else st

/-- `TernaryCrush.slice_to_bits`: pack ternary weights into the two
parallel bit planes, each `ceil(num_bits / 8)` bytes. -/
def sliceToBits (c : TernaryCrush) (weights : List TernaryWeight) :
    List ℕ × List ℕ :=
  let nbytes := (c.numBits + 7) / 8
  weights.foldl sliceStep
    (List.replicate nbytes 0, List.replicate nbytes 0)

/-- `TernaryCrush.bits_to_weights`: reconstruct the weights from the two
bit planes; confidence is `1.0` for non-void and `0.0` for void. -/
def bitsToWeights (c : TernaryCrush) (bitsPos bitsNeg : List ℕ) :
    List TernaryWeight :=
  (List.range c.numBits).map fun position =>
    if getBit bitsPos position ≠ 0 then ⟨position, 1, 1, []⟩
    else if getBit bitsNeg position ≠ 0 then ⟨position, -1, 1, []⟩
    else ⟨position, 0, 0, []⟩

/-- `TernaryCrush._calculate_internal_hamming`: `min(variance * 10, 8.0)`
of the per-weight confidences, `0.0` with fewer than two weights. -/
def calculateInternalHamming (weights : List TernaryWeight) : ℚ :=
  let values := weights.map (·.confidence)
  if values.length < 2 then 0
  else min (sampleVariance values * 10) 8

/-- `TernaryCrush._calculate_weight_skew`: `statistics.stdev` (the sample
standard deviation, denominator `n - 1`) of the two counts, divided by
their mean; `0.0` when both counts are zero or the mean is not positive. -/
noncomputable def calculateWeightSkew (positiveCount negativeCount : ℕ) : ℝ :=
  if positiveCount = 0 ∧ negativeCount = 0 then 0
  else
    let mean : ℝ := ((positiveCount : ℝ) + (negativeCount : ℝ)) / 2
    if mean = 0 then 0
    else
      let std := Real.sqrt (((positiveCount : ℝ) - mean) ^ 2 +
        ((negativeCount : ℝ) - mean) ^ 2)
      if mean > 0 then std / mean else 0

/-- The evidence dictionary assembled by
`TernaryCrush._generate_evidence_hash`; `fact_ids` is
`sorted(list(phantom.fact_ids))`. -/
structure Evidence where
  phantomId : String
  factIds : List ℕ
  hitCount : ℕ
  avgConfidence : ℚ
  queryConcepts : List String
deriving DecidableEq

def evidenceOf (phantom : PhantomCandidate) : Evidence :=
  ⟨phantom.phantomId, phantom.factIds.sort (· ≤ ·), phantom.hitCount,
   phantom.avgConfidence, phantom.queryConcepts⟩

/-- `json.dumps(evidence, sort_keys=True)`: canonical serialization with
the keys in alphabetical order.  The rendering of numbers and lists is
abstracted by `toString`; only determinism and which fields are serialized
matter for the claims. -/
def dumpsEvidence (e : Evidence) : String :=
  "\x7b\"avg_confidence\": " ++ toString e.avgConfidence
  ++ ", \"fact_ids\": " ++ toString e.factIds
  ++ ", \"hit_count\": " ++ toString e.hitCount
  ++ ", \"phantom_id\": \"" ++ e.phantomId
  ++ "\", \"query_concepts\": " ++ toString e.queryConcepts ++ "\x7d"

/-- `TernaryCrush._generate_grain_id`: the first 16 hex characters of the
SHA-256 digest of `phantom_id + ":" + created_at`.  The digest function
`sha` (Python's `hashlib.sha256(...).hexdigest()`) is a parameter of the
development. -/
def generateGrainId (sha : String → String) (phantom : PhantomCandidate) :
    String :=
  (sha (phantom.phantomId ++ ":" ++ phantom.createdAt)).take 16

/-- `TernaryCrush._generate_evidence_hash`: the full digest of the
canonical evidence serialization.  The `weights` argument of the Python
method is accepted and ignored, exactly as in the source. -/
def generateEvidenceHash (sha : String → String)
    (phantom : PhantomCandidate) (_weights : List TernaryWeight) : String :=
  sha (dumpsEvidence (evidenceOf phantom))

/-- Modelled from the spec: the `GrainMetadata` record of the missing
`shannon_grain` module, with the fields `crystallize_grain` fills in
(spec §3).  `bits_void` is an integer because it is computed by
subtraction. -/
structure GrainMetadata where
  grainId : String
  sourcePhantomId : String
  cartridgeId : String
  numBits : ℕ
  bitsPositive : ℕ
  bitsNegative : ℕ
  bitsVoid : ℤ
  axiomIds : List String
  evidenceHash : String
  internalHamming : ℚ
  weightSkew : ℝ
  avgConfidence : ℚ
  observationCount : ℕ
  bitArrayPlus : List ℕ
  bitArrayMinus : List ℕ
  epistemicLevel : ℕ

/-- `TernaryCrush.crystallize_grain`: infer weights, count the ternary
values, slice to bit planes, compute the quality metrics and assemble the
grain.  `none` models a raised exception (propagated from
`infer_weights`). -/
noncomputable def crystallizeGrain (sha : String → String) (c : TernaryCrush)
    (phantom : PhantomCandidate)
    (observationVectors : Option (List (List ℚ)))
    (axiomIds : Option (List String)) : Option GrainMetadata :=
  match inferWeights c phantom observationVectors with
  | none => none
  | some weights =>
    let positiveCount := weights.countP fun w => w.value = 1
    let negativeCount := weights.countP fun w => w.value = -1
    let voidCount : ℤ := (c.numBits : ℤ) - positiveCount - negativeCount
    let bits := sliceToBits c weights
    some
      { grainId := generateGrainId sha phantom
        sourcePhantomId := phantom.phantomId
        cartridgeId := phantom.cartridgeId
        numBits := c.numBits
        bitsPositive := positiveCount
        bitsNegative := negativeCount
        bitsVoid := voidCount
        axiomIds := axiomIds.getD []
        evidenceHash := generateEvidenceHash sha phantom weights
        internalHamming := calculateInternalHamming weights
        weightSkew := calculateWeightSkew positiveCount negativeCount
        avgConfidence := phantom.avgConfidence
        observationCount := phantom.hitCount
        bitArrayPlus := bits.1
        bitArrayMinus := bits.2
        epistemicLevel := phantom.epistemicLevel }

/-- `AxiomValidator.__init__`: the validation thresholds (defaults 5,
0.75, 8, 2.0).  `max_internal_hamming` and `max_weight_skew` are stored
but never used by any check, as in the source. -/
structure AxiomValidator where
  minObservations : ℕ
  minConfidence : ℚ
  maxInternalHamming : ℕ
  maxWeightSkew : ℚ
deriving DecidableEq

/-- The default validator configuration. -/
def AxiomValidator.default : AxiomValidator := ⟨5, 3/4, 8, 2⟩

/-- The branch taken when `check_persistence` fills in
`metrics["reason"]`; each constructor stands for one of the format
strings of the source. -/
inductive PersistenceReason
  /-- "Too few hits (hit_count < min_observations)" -/
  | tooFewHits
  /-- "Low confidence (avg_confidence < min_confidence)" -/
  | lowConfidence
  /-- "Persistent pattern detected" -/
  | persistentPattern
deriving DecidableEq

/-- The metrics dictionary of `check_persistence` (display rounding of the
source, `round(x, 3)`, is abstracted away). -/
structure PersistenceMetrics where
  hitCount : ℕ
  minRequired : ℕ
  avgConfidence : ℚ
  minConfidence : ℚ
  cycleConsistency : ℚ
  passed : Bool
  reason : PersistenceReason
deriving DecidableEq

/-- `AxiomValidator.check_persistence`: passes iff the hit count reaches
`min_observations` and the average confidence reaches `min_confidence`. -/
def checkPersistence (v : AxiomValidator) (phantom : PhantomCandidate) :
    Bool × PersistenceMetrics :=
  let hitCount := phantom.hitCount
  let avgConfidence := phantom.avgConfidence
  let passed := decide (v.minObservations ≤ hitCount) &&
    decide (v.minConfidence ≤ avgConfidence)
  let reason : PersistenceReason :=
    if passed then .persistentPattern
    else if hitCount < v.minObservations then .tooFewHits
    else .lowConfidence
  (passed, ⟨hitCount, v.minObservations, avgConfidence, v.minConfidence,
    phantom.cycleConsistency, passed, reason⟩)

/-- The metrics dictionary of `check_least_resistance`. -/
structure ResistanceMetrics where
  factIds : List ℕ
  confidenceVariance : ℚ
  coherenceScore : ℚ
  coherenceThreshold : ℚ
  conceptConsistency : ℚ
  passed : Bool
deriving DecidableEq

/-- `AxiomValidator.check_least_resistance` (uses no validator
configuration; the 0.7 gate is hardcoded).  `list(phantom.fact_ids)` is
modelled in ascending order and `len(set(query_concepts))` by the length
after deduplication. -/
def checkLeastResistance (phantom : PhantomCandidate) :
    Bool × ResistanceMetrics :=
  let confidenceVariance :=
    if phantom.confidenceScores.length < 2 then 0
    else sampleVariance phantom.confidenceScores
  let coherenceScore := 1 - min (confidenceVariance / (1/4)) 1
  let conceptConsistency : ℚ :=
    if phantom.queryConcepts ≠ [] then
      min 1 ((phantom.queryConcepts.dedup.length : ℚ) /
        max (phantom.queryConcepts.length : ℚ) 1)
    else 1
  let passed := decide ((7 : ℚ)/10 ≤ coherenceScore)
  (passed, ⟨phantom.factIds.sort (· ≤ ·), confidenceVariance,
    coherenceScore, 7/10, conceptConsistency, passed⟩)

/-- An existing-grain record as seen by `check_independence` (spec §6): an
optional grain identifier and an optional identity field interpretable as
a fact-id set.  In the source the identity field is the attribute
`source_phantom_id`, probed with `hasattr`; `none` models a record that
lacks the attribute. -/
structure ExistingGrain where
  grainId : Option String
  sourcePhantomId : Option (Finset ℕ)
deriving DecidableEq

/-- The metrics dictionary of `check_independence`; `maxOverlap` is `none`
in the auto-pass branch, where the source omits the key. -/
structure IndependenceMetrics where
  passed : Bool
  maxOverlap : Option ℚ
  mostSimilarGrain : Option String
deriving DecidableEq

/-- The scoring loop of `check_independence`.  `none` models the
`ZeroDivisionError` raised when a grain's identity set and the candidate's
`fact_ids` are both empty (`len(union) == 0`). -/
def independenceScan (factIds : Finset ℕ) :
    List ExistingGrain → ℚ × Option String → Option (ℚ × Option String)
  | [], st => some st
  | g :: rest, st =>
    match g.sourcePhantomId with
    | none => independenceScan factIds rest st
    | some ident =>
      if (factIds ∪ ident).card = 0 then none
      else
        let overlap : ℚ :=
          ((factIds ∩ ident).card : ℚ) / ((factIds ∪ ident).card : ℚ)
        if overlap > st.1 then
          independenceScan factIds rest
            (overlap, some (g.grainId.getD "unknown"))
        else independenceScan factIds rest st

/-- `AxiomValidator.check_independence`: auto-pass when the existing-grain
list is absent or empty; otherwise score the maximum Jaccard overlap and
pass iff it stays below 0.6.  `none` models a raised exception. -/
def checkIndependence (phantom : PhantomCandidate)
    (existingGrains : Option (List ExistingGrain)) :
    Option (Bool × IndependenceMetrics) :=
  match existingGrains with
  | none => some (true, ⟨true, none, none⟩)
  | some [] => some (true, ⟨true, none, none⟩)
  | some gs =>
    match independenceScan phantom.factIds gs (0, none) with
    | none => none
    | some (maxOverlap, mostSimilar) =>
      let passed := decide (maxOverlap < 3/5)
      some (passed, ⟨passed, some maxOverlap, mostSimilar⟩)

/-- The full report of `AxiomValidator.validate`. -/
structure ValidationReport where
  phantomId : String
  cartridgeId : String
  persistence : PersistenceMetrics
  leastResistance : ResistanceMetrics
  independence : IndependenceMetrics
  failedRules : List String
  overallPassed : Bool
deriving DecidableEq

/-- `AxiomValidator.validate`: run the three rules unconditionally and
combine them; `none` models an uncaught exception escaping from a rule
check. -/
def validate (v : AxiomValidator) (phantom : PhantomCandidate)
    (existingGrains : Option (List ExistingGrain)) :
    Option ValidationReport :=
  let persistenceResult := checkPersistence v phantom
  let resistanceResult := checkLeastResistance phantom
  match checkIndependence phantom existingGrains with
  | none => none
  | some independenceResult =>
    let failedRules :=
      (if persistenceResult.1 then [] else ["persistence"])
      ++ (if resistanceResult.1 then [] else ["least_resistance"])
      ++ (if independenceResult.1 then [] else ["independence"])
    some ⟨phantom.phantomId, phantom.cartridgeId, persistenceResult.2,
      resistanceResult.2, independenceResult.2, failedRules,
      persistenceResult.1 && resistanceResult.1 && independenceResult.1⟩

/-- Modelled from the spec: the Jaccard similarity
`|intersection| / |union|` of two fact-id sets (spec §4.1). -/
def jaccard (a b : Finset ℕ) : ℚ :=
  ((a ∩ b).card : ℚ) / ((a ∪ b).card : ℚ)

/-- Modelled from the spec: the maximum Jaccard overlap between the
candidate's fact-ids and the identity sets of the existing grains that
expose one (spec §4.1). -/
def specMaxOverlap (factIds : Finset ℕ) (gs : List ExistingGrain) : ℚ :=
  ((gs.filterMap (·.sourcePhantomId)).map (jaccard factIds)).foldl max 0

/-- Modelled from the spec: the population coefficient of variation
(population standard deviation divided by the mean) of the two counts
positive_count and negative_count, `0` when both counts are zero or their
mean is zero (spec §4.2, claim C9). -/
noncomputable def specPopulationCV (positiveCount negativeCount : ℕ) : ℝ :=
  if positiveCount = 0 ∧ negativeCount = 0 then 0
  else
    let mean : ℝ := ((positiveCount : ℝ) + (negativeCount : ℝ)) / 2
    if mean = 0 then 0
    else Real.sqrt ((((positiveCount : ℝ) - mean) ^ 2 +
      ((negativeCount : ℝ) - mean) ^ 2) / 2) / mean

/-! ### Supporting lemmas: bit planes -/

theorem getBit_eq_ite (arr : List ℕ) (pos : ℕ) :
    getBit arr pos =
      if (arr.getD (pos / 8) 0).testBit (pos % 8) then 1 else 0 := by
  rw [getBit, Nat.and_one_is_mod, Nat.shiftRight_eq_div_pow,
    Nat.testBit_to_div_mod]
  rcases Nat.mod_two_eq_zero_or_one (arr.getD (pos / 8) 0 / 2 ^ (pos % 8))
    with h | h <;> rw [h] <;> simp

theorem getBit_eq_one_iff (arr : List ℕ) (pos : ℕ) :
    getBit arr pos = 1 ↔ (arr.getD (pos / 8) 0).testBit (pos % 8) = true := by
  rw [getBit_eq_ite]
  split <;> simp_all

theorem getBit_ne_zero_iff (arr : List ℕ) (pos : ℕ) :
    getBit arr pos ≠ 0 ↔ getBit arr pos = 1 := by
  rw [getBit_eq_ite]
  split <;> simp

theorem length_setBitAt (arr : List ℕ) (pos : ℕ) :
    (setBitAt arr pos).length = arr.length :=
  List.length_set ..

theorem getBit_replicate_zero (n pos : ℕ) :
    getBit (List.replicate n (0 : ℕ)) pos = 0 := by
  rw [getBit]
  have h : (List.replicate n (0 : ℕ)).getD (pos / 8) 0 = 0 := by
    rw [List.getD_eq_getElem?_getD, List.getElem?_replicate]
    split <;> simp
  rw [h]
  simp [Nat.zero_shiftRight]

theorem getBit_setBitAt_self (arr : List ℕ) (pos : ℕ)
    (h : pos / 8 < arr.length) :
    getBit (setBitAt arr pos) pos = 1 := by
  rw [getBit_eq_one_iff, setBitAt, List.getD_eq_getElem?_getD,
    List.getElem?_set_eq_of_lt _ h, Option.getD_some, Nat.one_shiftLeft,
    Nat.testBit_or, Nat.testBit_two_pow]
  simp

theorem getBit_setBitAt_ne (arr : List ℕ) (p q : ℕ) (h : p ≠ q) :
    getBit (setBitAt arr q) p = getBit arr p := by
  rw [getBit_eq_ite, getBit_eq_ite, setBitAt]
  simp only [List.getD_eq_getElem?_getD]
  by_cases hb : p / 8 = q / 8
  · have hm : p % 8 ≠ q % 8 := by omega
    by_cases hlen : q / 8 < arr.length
    · rw [hb, List.getElem?_set_eq_of_lt _ hlen, Option.getD_some,
        Nat.one_shiftLeft, Nat.testBit_or, Nat.testBit_two_pow,
        decide_eq_false (fun hc => hm hc.symm), Bool.or_false]
    · rw [List.set_eq_of_length_le (le_of_not_lt hlen)]
  · rw [List.getElem?_set_ne (fun hc => hb hc.symm)]

theorem getBit_setBitAt_iff (arr : List ℕ) (p q : ℕ)
    (h : q / 8 < arr.length) :
    getBit (setBitAt arr q) p = 1 ↔ p = q ∨ getBit arr p = 1 := by
  by_cases hpq : p = q
  · subst hpq
    simp [getBit_setBitAt_self arr p h]
  · rw [getBit_setBitAt_ne arr p q hpq]
    simp [hpq]

theorem sliceStep_length_fst (s : List ℕ × List ℕ) (w : TernaryWeight) :
    (sliceStep s w).1.length = s.1.length := by
  rw [sliceStep]
  split_ifs <;> simp [length_setBitAt]

theorem sliceStep_length_snd (s : List ℕ × List ℕ) (w : TernaryWeight) :
    (sliceStep s w).2.length = s.2.length := by
  rw [sliceStep]
  split_ifs <;> simp [length_setBitAt]

theorem foldl_sliceStep_pos (W : List TernaryWeight) (s : List ℕ × List ℕ)
    (hin : ∀ w ∈ W, w.value = 1 → w.position / 8 < s.1.length) (p : ℕ) :
    getBit (W.foldl sliceStep s).1 p = 1 ↔
      (getBit s.1 p = 1 ∨ ∃ w ∈ W, w.position = p ∧ w.value = 1) := by
  induction W generalizing s with
  | nil => simp
  | cons w rest ih =>
    have hin' : ∀ w' ∈ rest, w'.value = 1 →
        w'.position / 8 < (sliceStep s w).1.length := by
      rw [sliceStep_length_fst]
      exact fun w' hm hv => hin w' (List.mem_cons_of_mem _ hm) hv
    rw [List.foldl_cons, ih (sliceStep s w) hin']
    have hstep : getBit (sliceStep s w).1 p = 1 ↔
        (getBit s.1 p = 1 ∨ (w.position = p ∧ w.value = 1)) := by
      rw [sliceStep]
      split_ifs with h1 h2
      · rw [getBit_setBitAt_iff s.1 p w.position
          (hin w (List.mem_cons_self _ _) h1)]
        constructor
        · rintro (rfl | hb)
          · exact Or.inr ⟨rfl, h1⟩
          · exact Or.inl hb
        · rintro (hb | ⟨rfl, _⟩)
          · exact Or.inr hb
          · exact Or.inl rfl
      · simp [h1]
      · simp [h1]
    rw [hstep]
    constructor
    · rintro ((hb | hw) | ⟨w', hm, hp, hv⟩)
      · exact Or.inl hb
      · exact Or.inr ⟨w, List.mem_cons_self _ _, hw.1, hw.2⟩
      · exact Or.inr ⟨w', List.mem_cons_of_mem _ hm, hp, hv⟩
    · rintro (hb | ⟨w', hm, hp, hv⟩)
      · exact Or.inl (Or.inl hb)
      · rcases List.mem_cons.mp hm with rfl | hm'
        · exact Or.inl (Or.inr ⟨hp, hv⟩)
        · exact Or.inr ⟨w', hm', hp, hv⟩

theorem foldl_sliceStep_neg (W : List TernaryWeight) (s : List ℕ × List ℕ)
    (hin : ∀ w ∈ W, w.value = -1 → w.position / 8 < s.2.length) (p : ℕ) :
    getBit (W.foldl sliceStep s).2 p = 1 ↔
      (getBit s.2 p = 1 ∨ ∃ w ∈ W, w.position = p ∧ w.value = -1) := by
  induction W generalizing s with
  | nil => simp
  | cons w rest ih =>
    have hin' : ∀ w' ∈ rest, w'.value = -1 →
        w'.position / 8 < (sliceStep s w).2.length := by
      rw [sliceStep_length_snd]
      exact fun w' hm hv => hin w' (List.mem_cons_of_mem _ hm) hv
    rw [List.foldl_cons, ih (sliceStep s w) hin']
    have hstep : getBit (sliceStep s w).2 p = 1 ↔
        (getBit s.2 p = 1 ∨ (w.position = p ∧ w.value = -1)) := by
      rw [sliceStep]
      split_ifs with h1 h2
      · have : w.value ≠ -1 := by rw [h1]; decide
        simp [this]
      · rw [getBit_setBitAt_iff s.2 p w.position
          (hin w (List.mem_cons_self _ _) h2)]
        constructor
        · rintro (rfl | hb)
          · exact Or.inr ⟨rfl, h2⟩
          · exact Or.inl hb
        · rintro (hb | ⟨rfl, _⟩)
          · exact Or.inr hb
          · exact Or.inl rfl
      · simp [h2]
    rw [hstep]
    constructor
    · rintro ((hb | hw) | ⟨w', hm, hp, hv⟩)
      · exact Or.inl hb
      · exact Or.inr ⟨w, List.mem_cons_self _ _, hw.1, hw.2⟩
      · exact Or.inr ⟨w', List.mem_cons_of_mem _ hm, hp, hv⟩
    · rintro (hb | ⟨w', hm, hp, hv⟩)
      · exact Or.inl (Or.inl hb)
      · rcases List.mem_cons.mp hm with rfl | hm'
        · exact Or.inl (Or.inr ⟨hp, hv⟩)
        · exact Or.inr ⟨w', hm', hp, hv⟩

theorem div8_lt_bytes {pos n : ℕ} (h : pos < n) : pos / 8 < (n + 7) / 8 := by
  omega

theorem sliceToBits_pos_iff (c : TernaryCrush) (W : List TernaryWeight)
    (hin : ∀ w ∈ W, w.position < c.numBits) (p : ℕ) :
    getBit (sliceToBits c W).1 p = 1 ↔
      ∃ w ∈ W, w.position = p ∧ w.value = 1 := by
  rw [sliceToBits]
  rw [foldl_sliceStep_pos W _ (fun w hm _ => by
    simpa using div8_lt_bytes (hin w hm)) p]
  simp [getBit_replicate_zero]

theorem sliceToBits_neg_iff (c : TernaryCrush) (W : List TernaryWeight)
    (hin : ∀ w ∈ W, w.position < c.numBits) (p : ℕ) :
    getBit (sliceToBits c W).2 p = 1 ↔
      ∃ w ∈ W, w.position = p ∧ w.value = -1 := by
  rw [sliceToBits]
  rw [foldl_sliceStep_neg W _ (fun w hm _ => by
    simpa using div8_lt_bytes (hin w hm)) p]
  simp [getBit_replicate_zero]

/-! ### Supporting lemmas: shape of the inferred weight lists -/

theorem length_aggregateStep (t : ℚ) (n : ℕ) (acc : List ℚ)
    (vc : List ℚ × ℚ) :
    (aggregateStep t n acc vc).length = min acc.length vc.1.length := by
  rw [aggregateStep]
  exact List.length_zipWith ..

theorem length_aggregate_foldl (t : ℚ) (n : ℕ) (L : List (List ℚ × ℚ))
    (acc : List ℚ) (h : ∀ x ∈ L, x.1.length = acc.length) :
    (L.foldl (aggregateStep t n) acc).length = acc.length := by
  induction L generalizing acc with
  | nil => rfl
  | cons x L ih =>
    rw [List.foldl_cons]
    have hx : (aggregateStep t n acc x).length = acc.length := by
      rw [length_aggregateStep, h x (List.mem_cons_self _ _)]
      omega
    rw [ih (aggregateStep t n acc x) fun y hy => by
      rw [hx]; exact h y (List.mem_cons_of_mem _ hy)]
    exact hx

theorem length_aggregateVectors (numBits : ℕ) (vs : List (List ℚ))
    (confs : List ℚ) (h : ∀ v ∈ vs, v.length = numBits) :
    (aggregateVectors numBits vs confs).length = numBits := by
  rw [aggregateVectors, length_aggregate_foldl]
  · exact List.length_replicate ..
  · intro x hx
    rw [List.length_replicate]
    exact h x.1 (List.of_mem_zip hx).1

theorem thresholdWeight_position (t : ℚ) (i : ℕ) (v : ℚ) :
    (thresholdWeight t i v).position = i := by
  rw [thresholdWeight]
  split_ifs <;> rfl

/-- Every weight produced by `_infer_synthetic` sits below `num_bits` and
its ternary value is a function of its position alone. -/
theorem inferSynthetic_mem (c : TernaryCrush) (p : PhantomCandidate) :
    ∀ w ∈ inferSynthetic c p,
      w.position < c.numBits ∧
      w.value = (if w.position < c.numBits * 30 / 100 then 1
        else if w.position < c.numBits * 30 / 100 + c.numBits * 20 / 100
          then -1 else 0) := by
  intro w hw
  simp only [inferSynthetic, List.mem_append, List.mem_map] at hw
  rcases hw with (⟨i, hi, rfl⟩ | ⟨i, hi, rfl⟩) | ⟨i, hi, rfl⟩
  · rw [List.mem_range] at hi
    refine ⟨by show i < c.numBits; omega, ?_⟩
    show (1 : ℤ) = if i < c.numBits * 30 / 100 then 1
      else if i < c.numBits * 30 / 100 + c.numBits * 20 / 100 then -1 else 0
    rw [if_pos hi]
  · rw [List.mem_range'_1] at hi
    refine ⟨by show i < c.numBits; omega, ?_⟩
    show (-1 : ℤ) = if i < c.numBits * 30 / 100 then 1
      else if i < c.numBits * 30 / 100 + c.numBits * 20 / 100 then -1 else 0
    rw [if_neg (by omega), if_pos (by omega)]
  · rw [List.mem_range'_1] at hi
    refine ⟨by show i < c.numBits; omega, ?_⟩
    show (0 : ℤ) = if i < c.numBits * 30 / 100 then 1
      else if i < c.numBits * 30 / 100 + c.numBits * 20 / 100 then -1 else 0
    rw [if_neg (by omega), if_neg (by omega)]

theorem inferSynthetic_value_of_position (c : TernaryCrush)
    (p : PhantomCandidate) :
    ∀ w ∈ inferSynthetic c p, ∀ w' ∈ inferSynthetic c p,
      w.position = w'.position → w.value = w'.value := by
  intro w hw w' hw' hpos
  rw [(inferSynthetic_mem c p w hw).2, (inferSynthetic_mem c p w' hw').2,
    hpos]

/-- Every weight produced by `_infer_from_vectors` (on validated input)
sits below `num_bits`, and weights agreeing on position are equal. -/
theorem inferFromVectors_mem (c : TernaryCrush) (vs : List (List ℚ))
    (confs : List ℚ) (ws : List TernaryWeight) (hvs : vs ≠ [])
    (h : inferFromVectors c vs confs = some ws) :
    (∀ w ∈ ws, w.position < c.numBits) ∧
    (∀ w ∈ ws, ∀ w' ∈ ws, w.position = w'.position → w = w') := by
  rw [inferFromVectors, if_neg hvs] at h
  by_cases hany : vs.any fun v => v.length ≠ c.numBits
  · rw [if_pos hany] at h
    exact absurd h (by simp)
  · rw [if_neg hany] at h
    have hlen : ∀ v ∈ vs, v.length = c.numBits := by
      intro v hv
      by_contra hne
      exact hany (List.any_eq_true.mpr ⟨v, hv, by simpa using hne⟩)
    have hagg : (aggregateVectors c.numBits vs confs).length = c.numBits :=
      length_aggregateVectors c.numBits vs confs hlen
    obtain rfl : ((aggregateVectors c.numBits vs confs).enum.map fun pv =>
        thresholdWeight c.confidenceThreshold pv.1 pv.2) = ws :=
      Option.some_injective _ h
    constructor
    · intro w hw
      obtain ⟨⟨i, a⟩, hmem, rfl⟩ := List.mem_map.mp hw
      have := List.mem_enum_iff_getElem?.mp hmem
      rw [thresholdWeight_position]
      have : i < (aggregateVectors c.numBits vs confs).length :=
        List.getElem?_eq_some.mp this |>.1
      omega
    · intro w hw w' hw' hpos
      obtain ⟨⟨i, a⟩, hmem, rfl⟩ := List.mem_map.mp hw
      obtain ⟨⟨i', a'⟩, hmem', rfl⟩ := List.mem_map.mp hw'
      rw [thresholdWeight_position, thresholdWeight_position] at hpos
      subst hpos
      have h1 := List.mem_enum_iff_getElem?.mp hmem
      have h2 := List.mem_enum_iff_getElem?.mp hmem'
      rw [h1] at h2
      obtain rfl : a = a' := Option.some_injective _ h2
      rfl

/-- Any weight list delivered by `infer_weights` has all its positions
below `num_bits`, and its ternary value is determined by the position. -/
theorem inferWeights_shape (c : TernaryCrush) (p : PhantomCandidate)
    (v : Option (List (List ℚ))) (ws : List TernaryWeight)
    (h : inferWeights c p v = some ws) :
    (∀ w ∈ ws, w.position < c.numBits) ∧
    (∀ w ∈ ws, ∀ w' ∈ ws, w.position = w'.position → w.value = w'.value) := by
  match v with
  | none =>
    obtain rfl : inferSynthetic c p = ws := Option.some_injective _ h
    exact ⟨fun w hw => (inferSynthetic_mem c p w hw).1,
      inferSynthetic_value_of_position c p⟩
  | some vs =>
    rw [inferWeights] at h
    by_cases hvs : vs = []
    · subst hvs
      rw [if_neg (by simp)] at h
      obtain rfl : inferSynthetic c p = ws := Option.some_injective _ h
      exact ⟨fun w hw => (inferSynthetic_mem c p w hw).1,
        inferSynthetic_value_of_position c p⟩
    · rw [if_pos hvs] at h
      obtain ⟨h1, h2⟩ := inferFromVectors_mem c vs p.confidenceScores ws hvs h
      exact ⟨h1, fun w hw w' hw' hpos => by rw [h2 w hw w' hw' hpos]⟩

theorem bitsToWeights_length (c : TernaryCrush) (bp bn : List ℕ) :
    (bitsToWeights c bp bn).length = c.numBits := by
  rw [bitsToWeights]
  simp

theorem bitsToWeights_getElem? (c : TernaryCrush) (bp bn : List ℕ) {p : ℕ}
    (h : p < c.numBits) :
    (bitsToWeights c bp bn)[p]? =
      some (if getBit bp p ≠ 0 then ⟨p, 1, 1, []⟩
        else if getBit bn p ≠ 0 then ⟨p, -1, 1, []⟩ else ⟨p, 0, 0, []⟩) := by
  rw [bitsToWeights, List.getElem?_map, List.getElem?_range h,
    Option.map_some']

theorem countP_position_unique {W : List TernaryWeight} {p : ℕ}
    (h : W.countP (fun w => w.position = p) = 1) :
    ∀ w ∈ W, w.position = p → ∀ w' ∈ W, w'.position = p → w = w' := by
  rw [List.countP_eq_length_filter] at h
  obtain ⟨a, ha⟩ := List.length_eq_one.mp h
  intro w hw hwp w' hw' hwp'
  have h1 : w ∈ W.filter (fun w => w.position = p) :=
    List.mem_filter.mpr ⟨hw, by simp [hwp]⟩
  have h2 : w' ∈ W.filter (fun w => w.position = p) :=
    List.mem_filter.mpr ⟨hw', by simp [hwp']⟩
  rw [ha, List.mem_singleton] at h1 h2
  rw [h1, h2]

/-! ### Supporting lemmas: independence scoring -/

theorem independenceScan_characterization (factIds : Finset ℕ)
    (gs : List ExistingGrain) (st : ℚ × Option String)
    (h : ∀ g ∈ gs, ∀ idt, g.sourcePhantomId = some idt →
      (factIds ∪ idt).card ≠ 0) :
    ∃ ms, independenceScan factIds gs st =
      some (((gs.filterMap (·.sourcePhantomId)).map
        (jaccard factIds)).foldl max st.1, ms) := by
  induction gs generalizing st with
  | nil => exact ⟨st.2, rfl⟩
  | cons g rest ih =>
    have hrest : ∀ g' ∈ rest, ∀ idt', g'.sourcePhantomId = some idt' →
        (factIds ∪ idt').card ≠ 0 :=
      fun g' hm => h g' (List.mem_cons_of_mem _ hm)
    match hg : g.sourcePhantomId with
    | none =>
      simp only [independenceScan, hg, List.filterMap_cons]
      exact ih st hrest
    | some idt =>
      have hcard : (factIds ∪ idt).card ≠ 0 :=
        h g (List.mem_cons_self _ _) idt hg
      simp only [independenceScan, hg, List.filterMap_cons, if_neg hcard,
        List.map_cons, List.foldl_cons]
      by_cases hcmp :
        ((factIds ∩ idt).card : ℚ) / ((factIds ∪ idt).card : ℚ) > st.1
      · rw [if_pos hcmp,
          max_eq_right (show st.1 ≤ jaccard factIds idt from le_of_lt hcmp)]
        exact ih (jaccard factIds idt, some (g.grainId.getD "unknown")) hrest
      · rw [if_neg hcmp,
          max_eq_left (show jaccard factIds idt ≤ st.1 from not_lt.mp hcmp)]
        exact ih st hrest

theorem union_card_ne_zero_of_nonempty {factIds idt : Finset ℕ}
    (h : factIds.Nonempty) : (factIds ∪ idt).card ≠ 0 :=
  (Finset.card_pos.mpr (h.mono Finset.subset_union_left)).ne'

theorem checkIndependence_characterization (p : PhantomCandidate)
    (gs : List ExistingGrain) (hgs : gs ≠ [])
    (h : ∀ g ∈ gs, ∀ idt, g.sourcePhantomId = some idt →
      (p.factIds ∪ idt).card ≠ 0) :
    ∃ ms, checkIndependence p (some gs) =
      some (decide (specMaxOverlap p.factIds gs < 3/5),
        ⟨decide (specMaxOverlap p.factIds gs < 3/5),
         some (specMaxOverlap p.factIds gs), ms⟩) := by
  match gs with
  | [] => exact absurd rfl hgs
  | g :: rest =>
    obtain ⟨ms, hms⟩ :=
      independenceScan_characterization p.factIds (g :: rest) (0, none) h
    refine ⟨ms, ?_⟩
    have hred : checkIndependence p (some (g :: rest)) =
        match independenceScan p.factIds (g :: rest) (0, none) with
        | none => none
        | some (maxOverlap, mostSimilar) =>
          let passed := decide (maxOverlap < 3/5)
          some (passed, ⟨passed, some maxOverlap, mostSimilar⟩) := rfl
    rw [hred, hms]
    rfl

/-! ### Concrete test fixtures (mirroring the spec's §8 example values) -/

/-- 5 hits at confidence 0.8 throughout. -/
def exPersistPass : PhantomCandidate :=
  ⟨"ph_pass", "cart", {1, 2, 3}, 5, [4/5, 4/5, 4/5, 4/5, 4/5], ["a"],
   0, "persistent", "t0", 0⟩

/-- Only 4 hits. -/
def exPersistFew : PhantomCandidate :=
  ⟨"ph_few", "cart", {1, 2}, 4, [4/5, 4/5, 4/5, 4/5], ["a"],
   0, "persistent", "t0", 0⟩

/-- 10 hits at average confidence 0.70. -/
def exPersistLow : PhantomCandidate :=
  ⟨"ph_low", "cart", {1, 2}, 10,
   [7/10, 7/10, 7/10, 7/10, 7/10, 7/10, 7/10, 7/10, 7/10, 7/10], ["a"],
   0, "persistent", "t0", 0⟩

/-- Confidences [0.85, 0.86, 0.84, 0.87, 0.85]: tightly clustered. -/
def exCoherent : PhantomCandidate :=
  ⟨"ph_coh", "cart", {1, 2, 3}, 5,
   [17/20, 43/50, 21/25, 87/100, 17/20], ["a", "b"], 0, "persistent",
   "t0", 0⟩

/-- Confidences [0.95, 0.10, 0.92, 0.08, 0.94]: wildly scattered. -/
def exIncoherent : PhantomCandidate :=
  ⟨"ph_incoh", "cart", {6, 7, 8}, 5,
   [19/20, 1/10, 23/25, 2/25, 47/50], ["d"], 0, "persistent", "t0", 0⟩

/-- A candidate with fact ids 1, 2, 3 for the independence examples. -/
def exIndepCandidate : PhantomCandidate :=
  ⟨"ph_indep", "cart", {1, 2, 3}, 5, [4/5, 4/5, 4/5, 4/5, 4/5], ["a"],
   0, "persistent", "t0", 0⟩

/-- An existing grain whose identity set is exactly 1, 2, 3. -/
def exGrainSame : ExistingGrain := ⟨some "g_same", some {1, 2, 3}⟩

/-- An existing grain whose identity set is 4, 5, 6. -/
def exGrainOther : ExistingGrain := ⟨some "g_other", some {4, 5, 6}⟩

/-- A degenerate candidate with an empty fact-id set. -/
def exNoFacts : PhantomCandidate :=
  ⟨"ph_nofacts", "cart", ∅, 5, [4/5, 4/5, 4/5, 4/5, 4/5], ["a"],
   0, "persistent", "t0", 0⟩

/-- An existing grain exposing an empty identity set. -/
def exGrainEmptyIdent : ExistingGrain := ⟨some "g_empty", some ∅⟩

/-! ### Claims -/

/-- C5: `check_persistence` passes iff `hit_count ≥ min_observations` AND
`avg_confidence ≥ min_confidence`; a failure with too few hits cites the
hit count, and a failure with enough hits but a low average confidence
cites the confidence.  Under the defaults (`min_observations = 5`,
`min_confidence = 0.75`): 5 hits at confidence 0.8 pass; 4 hits fail
citing the hit count; 10 hits at average confidence 0.70 fail citing the
confidence. -/
theorem claim_C5_persistence (v : AxiomValidator) (p : PhantomCandidate) :
    ((checkPersistence v p).1 = true ↔
      v.minObservations ≤ p.hitCount ∧ v.minConfidence ≤ p.avgConfidence)
    ∧ (p.hitCount < v.minObservations →
        (checkPersistence v p).1 = false ∧
        (checkPersistence v p).2.reason = .tooFewHits)
    ∧ (v.minObservations ≤ p.hitCount → p.avgConfidence < v.minConfidence →
        (checkPersistence v p).1 = false ∧
        (checkPersistence v p).2.reason = .lowConfidence)
    ∧ (checkPersistence .default exPersistPass).1 = true
    ∧ ((checkPersistence .default exPersistFew).1 = false ∧
        (checkPersistence .default exPersistFew).2.reason = .tooFewHits)
    ∧ ((checkPersistence .default exPersistLow).1 = false ∧
        (checkPersistence .default exPersistLow).2.reason = .lowConfidence) := by
  refine ⟨?_, ?_, ?_, ?_, ?_, ?_⟩
  · simp [checkPersistence]
  · intro hp
    have hdec : decide (v.minObservations ≤ p.hitCount) = false :=
      decide_eq_false (not_le.mpr hp)
    simp [checkPersistence, hdec, hp]
  · intro hh hc
    have hdec : decide (v.minConfidence ≤ p.avgConfidence) = false :=
      decide_eq_false (not_le.mpr hc)
    simp [checkPersistence, hdec, not_lt.mpr hh]
  · norm_num [checkPersistence, AxiomValidator.default, exPersistPass,
      PhantomCandidate.avgConfidence]
  · norm_num [checkPersistence, AxiomValidator.default, exPersistFew,
      PhantomCandidate.avgConfidence]
  · norm_num [checkPersistence, AxiomValidator.default, exPersistLow,
      PhantomCandidate.avgConfidence]

/-- Witness for C5 at a concrete input: the default validator on the
4-hit candidate fails citing the hit count. -/
theorem claim_C5_persistence_witness :
    (checkPersistence .default exPersistFew).1 = false ∧
    (checkPersistence .default exPersistFew).2.reason = .tooFewHits :=
  (claim_C5_persistence AxiomValidator.default exPersistFew).2.1
    (by norm_num [exPersistFew, AxiomValidator.default])

/-- C6: `check_least_resistance` computes the sample variance of the
confidence scores (0 below two samples), sets
`coherence_score = 1 - min(variance / 0.25, 1)` and passes iff that score
reaches 0.7 — equivalently, iff the variance is at most 0.075; the
clustered example passes, the scattered example fails, and
`concept_consistency` never affects the outcome. -/
theorem claim_C6_least_resistance :
    (∀ p : PhantomCandidate,
      (checkLeastResistance p).2.confidenceVariance =
        (if p.confidenceScores.length < 2 then 0
          else sampleVariance p.confidenceScores)
      ∧ (checkLeastResistance p).2.coherenceScore =
          1 - min ((checkLeastResistance p).2.confidenceVariance / (1/4)) 1
      ∧ ((checkLeastResistance p).1 = true ↔
          (checkLeastResistance p).2.coherenceScore ≥ 7/10)
      ∧ ((checkLeastResistance p).1 = true ↔
          (p.confidenceScores.length < 2 ∨
            sampleVariance p.confidenceScores ≤ 3/40)))
    ∧ (∀ p q : PhantomCandidate,
        p.confidenceScores = q.confidenceScores →
        (checkLeastResistance p).1 = (checkLeastResistance q).1)
    ∧ (checkLeastResistance exCoherent).1 = true
    ∧ (checkLeastResistance exIncoherent).1 = false := by
  have hkey : ∀ p : PhantomCandidate, (checkLeastResistance p).1 =
      decide ((7 : ℚ)/10 ≤ 1 - min ((if p.confidenceScores.length < 2 then 0
        else sampleVariance p.confidenceScores) / (1/4)) 1) := by
    intro p
    rfl
  refine ⟨?_, ?_, ?_, ?_⟩
  · intro p
    refine ⟨rfl, rfl, ?_, ?_⟩
    · rw [hkey]
      simp only [decide_eq_true_eq]
      exact ⟨fun h => h, fun h => h⟩
    · rw [hkey]
      simp only [decide_eq_true_eq]
      by_cases hlen : p.confidenceScores.length < 2
      · rw [if_pos hlen]
        norm_num [hlen]
      · rw [if_neg hlen]
        constructor
        · intro h
          refine Or.inr ?_
          by_contra hv
          push_neg at hv
          have : (1 : ℚ) - min (sampleVariance p.confidenceScores / (1/4)) 1
              < 7/10 := by
            rcases le_or_lt (sampleVariance p.confidenceScores / (1/4)) 1
              with hm | hm
            · rw [min_eq_left hm]
              have : (3 : ℚ)/10 < sampleVariance p.confidenceScores / (1/4) := by
                rw [div_div_eq_mul_div, div_one] at *
                nlinarith
              linarith
            · rw [min_eq_right (le_of_lt hm)]
              norm_num
          linarith
        · intro h
          rcases h with h | h
          · exact absurd h hlen
          · have hmin : min (sampleVariance p.confidenceScores / (1/4)) 1
                ≤ 3/10 := by
              refine le_trans (min_le_left _ _) ?_
              rw [div_div_eq_mul_div, div_one]
              linarith
            linarith
  · intro p q hpq
    rw [hkey, hkey, hpq]
  · rw [hkey]
    norm_num [exCoherent, sampleVariance, listMean]
  · rw [hkey]
    norm_num [exIncoherent, sampleVariance, listMean]

/-- Witness for C6 at a concrete input: two candidates sharing the
clustered confidence scores get the same verdict. -/
theorem claim_C6_least_resistance_witness :
    (checkLeastResistance exCoherent).1 =
      (checkLeastResistance
        ⟨"ph_other", "cart2", {9}, 7, [17/20, 43/50, 21/25, 87/100, 17/20],
         [], 0, "persistent", "t1", 1⟩).1 :=
  claim_C6_least_resistance.2.1 exCoherent _ (by rfl)

theorem validate_isSome_of_checkIndependence (v : AxiomValidator)
    (p : PhantomCandidate) (gs : Option (List ExistingGrain))
    (h : (checkIndependence p gs).isSome) : (validate v p gs).isSome := by
  obtain ⟨ir, hir⟩ := Option.isSome_iff_exists.mp h
  unfold validate
  rw [hir]
  rfl

/-- C3 counterexample: the claim describes `check_independence` as
computing the Jaccard similarity, tracking the maximum and returning a
pass/fail verdict for every candidate, but for a candidate with an empty
`fact_ids` set scored against an existing grain exposing an empty
identity set the Jaccard division has `len(union) == 0`, so the call
raises `ZeroDivisionError` (modelled by `none`) and returns no verdict at
all. -/
theorem claim_C3_counterexample :
    checkIndependence exNoFacts (some [exGrainEmptyIdent]) = none := rfl

/-- C3 (amended): `check_independence` auto-passes with an absent or
empty existing-grain list; otherwise, provided every exposed identity set
has a non-empty union with the candidate's `fact_ids` (the division-free
case), it scores the maximum Jaccard overlap between the candidate's fact
ids and each exposed identity set (skipping grains without one), tracks
the most-similar grain id, and passes iff that maximum stays strictly
below 0.6.  A candidate with fact ids 1,2,3 fails against an existing
grain with identity 1,2,3 (overlap 1.0) and passes against identity 4,5,6
(overlap 0.0); a candidate with empty `fact_ids` also passes against a
non-empty identity set (overlap 0.0). -/
theorem claim_C3_independence_amended (p : PhantomCandidate)
    (gs : List ExistingGrain) (hgs : gs ≠ [])
    (hu : ∀ g ∈ gs, ∀ idt, g.sourcePhantomId = some idt →
      (p.factIds ∪ idt).card ≠ 0) :
    checkIndependence p none = some (true, ⟨true, none, none⟩)
    ∧ checkIndependence p (some []) = some (true, ⟨true, none, none⟩)
    ∧ (∃ ms, checkIndependence p (some gs) =
        some (decide (specMaxOverlap p.factIds gs < 3/5),
          ⟨decide (specMaxOverlap p.factIds gs < 3/5),
           some (specMaxOverlap p.factIds gs), ms⟩))
    ∧ (checkIndependence exIndepCandidate (some [exGrainSame])).map (·.1)
        = some false
    ∧ (checkIndependence exIndepCandidate (some [exGrainSame])).map
        (fun r => r.2.maxOverlap) = some (some 1)
    ∧ (checkIndependence exIndepCandidate (some [exGrainOther])).map (·.1)
        = some true
    ∧ (checkIndependence exIndepCandidate (some [exGrainOther])).map
        (fun r => r.2.maxOverlap) = some (some 0)
    ∧ (checkIndependence exNoFacts (some [exGrainOther])).map (·.1)
        = some true
    ∧ (checkIndependence exNoFacts (some [exGrainOther])).map
        (fun r => r.2.maxOverlap) = some (some 0) := by
  have hmax1 : specMaxOverlap exIndepCandidate.factIds [exGrainSame] = 1 := by
    simp only [specMaxOverlap, exGrainSame, exIndepCandidate,
      List.filterMap_cons, List.filterMap_nil, List.map_cons, List.map_nil,
      List.foldl_cons, List.foldl_nil, jaccard]
    rw [show (({1, 2, 3} : Finset ℕ) ∩ {1, 2, 3}).card = 3 by decide,
      show (({1, 2, 3} : Finset ℕ) ∪ {1, 2, 3}).card = 3 by decide]
    norm_num
  have hmax0 : specMaxOverlap exIndepCandidate.factIds [exGrainOther] = 0 := by
    simp only [specMaxOverlap, exGrainOther, exIndepCandidate,
      List.filterMap_cons, List.filterMap_nil, List.map_cons, List.map_nil,
      List.foldl_cons, List.foldl_nil, jaccard]
    rw [show (({1, 2, 3} : Finset ℕ) ∩ {4, 5, 6}).card = 0 by decide,
      show (({1, 2, 3} : Finset ℕ) ∪ {4, 5, 6}).card = 6 by decide]
    norm_num
  have hmaxE : specMaxOverlap exNoFacts.factIds [exGrainOther] = 0 := by
    simp only [specMaxOverlap, exGrainOther, exNoFacts,
      List.filterMap_cons, List.filterMap_nil, List.map_cons, List.map_nil,
      List.foldl_cons, List.foldl_nil, jaccard]
    rw [show ((∅ : Finset ℕ) ∩ {4, 5, 6}).card = 0 by decide,
      show ((∅ : Finset ℕ) ∪ {4, 5, 6}).card = 3 by decide]
    norm_num
  have hne' : exIndepCandidate.factIds.Nonempty := ⟨1, by decide⟩
  have huE : ∀ g ∈ [exGrainOther], ∀ idt, g.sourcePhantomId = some idt →
      (exNoFacts.factIds ∪ idt).card ≠ 0 := by
    intro g hg idt hidt
    rw [List.mem_singleton] at hg
    subst hg
    injection hidt with h'
    subst h'
    decide
  obtain ⟨ms1, hms1⟩ := checkIndependence_characterization exIndepCandidate
    [exGrainSame] (by simp)
    (fun g hg idt _ => union_card_ne_zero_of_nonempty hne')
  obtain ⟨ms0, hms0⟩ := checkIndependence_characterization exIndepCandidate
    [exGrainOther] (by simp)
    (fun g hg idt _ => union_card_ne_zero_of_nonempty hne')
  obtain ⟨msE, hmsE⟩ := checkIndependence_characterization exNoFacts
    [exGrainOther] (by simp) huE
  refine ⟨rfl, rfl, ?_, ?_, ?_, ?_, ?_, ?_, ?_⟩
  · exact checkIndependence_characterization p gs hgs hu
  · rw [hms1, Option.map_some']
    rw [hmax1] at *
    norm_num
  · rw [hms1, Option.map_some']
    rw [hmax1] at *
  · rw [hms0, Option.map_some']
    rw [hmax0] at *
    norm_num
  · rw [hms0, Option.map_some']
    rw [hmax0] at *
  · rw [hmsE, Option.map_some']
    rw [hmaxE] at *
    norm_num
  · rw [hmsE, Option.map_some']
    rw [hmaxE] at *

/-- Witness for C3 (amended) at a concrete input: the general
characterization evaluated for the candidate with fact ids 1,2,3 against
the grain with identity 4,5,6, discharging the non-empty-union guard
there. -/
theorem claim_C3_independence_amended_witness :
    checkIndependence exIndepCandidate none = some (true, ⟨true, none, none⟩)
    ∧ checkIndependence exIndepCandidate (some []) =
        some (true, ⟨true, none, none⟩)
    ∧ (∃ ms, checkIndependence exIndepCandidate (some [exGrainOther]) =
        some (decide (specMaxOverlap exIndepCandidate.factIds
            [exGrainOther] < 3/5),
          ⟨decide (specMaxOverlap exIndepCandidate.factIds
            [exGrainOther] < 3/5),
           some (specMaxOverlap exIndepCandidate.factIds [exGrainOther]),
           ms⟩))
    ∧ (checkIndependence exIndepCandidate (some [exGrainSame])).map (·.1)
        = some false
    ∧ (checkIndependence exIndepCandidate (some [exGrainSame])).map
        (fun r => r.2.maxOverlap) = some (some 1)
    ∧ (checkIndependence exIndepCandidate (some [exGrainOther])).map (·.1)
        = some true
    ∧ (checkIndependence exIndepCandidate (some [exGrainOther])).map
        (fun r => r.2.maxOverlap) = some (some 0)
    ∧ (checkIndependence exNoFacts (some [exGrainOther])).map (·.1)
        = some true
    ∧ (checkIndependence exNoFacts (some [exGrainOther])).map
        (fun r => r.2.maxOverlap) = some (some 0) :=
  claim_C3_independence_amended exIndepCandidate [exGrainOther] (by simp)
    (by
      intro g hg idt hidt
      rw [List.mem_singleton] at hg
      subst hg
      injection hidt with h'
      subst h'
      decide)

/-- C4 counterexample: with an empty candidate fact-id set and an
existing grain exposing an empty identity set, the Jaccard computation in
`check_independence` divides by `len(union) == 0`; the resulting
`ZeroDivisionError` (modelled by `none`) escapes `validate`, so no report
is returned. -/
theorem claim_C4_counterexample :
    checkIndependence exNoFacts (some [exGrainEmptyIdent]) = none
    ∧ validate .default exNoFacts (some [exGrainEmptyIdent]) = none :=
  ⟨rfl, rfl⟩

/-- C4 (amended): `validate` returns a complete report (raises no
exception) for every candidate and existing-grain list in which every
exposed identity set has a non-empty union with the candidate's fact ids
— in particular whenever the candidate's fact-id set is non-empty;
malformed existing-grain entries (those lacking the identity field) are
silently excluded from independence scoring. -/
theorem claim_C4_no_exceptions_amended (v : AxiomValidator)
    (p : PhantomCandidate) (gs : Option (List ExistingGrain))
    (h : ∀ g ∈ gs.getD [], ∀ idt, g.sourcePhantomId = some idt →
      (p.factIds ∪ idt).card ≠ 0) :
    ∃ r : ValidationReport, validate v p gs = some r := by
  match gs with
  | none => exact ⟨_, rfl⟩
  | some [] => exact ⟨_, rfl⟩
  | some (g :: rest) =>
    obtain ⟨ms, hms⟩ := checkIndependence_characterization p (g :: rest)
      (by simp) (by simpa using h)
    exact Option.isSome_iff_exists.mp
      (validate_isSome_of_checkIndependence v p (some (g :: rest))
        (by rw [hms]; rfl))

/-- Witness for C4 (amended) at a concrete input: the default validator
on the candidate with fact ids 1,2,3 against the grain with
identity 4,5,6 returns a report. -/
theorem claim_C4_no_exceptions_amended_witness :
    ∃ r : ValidationReport,
      validate .default exIndepCandidate (some [exGrainOther]) = some r :=
  claim_C4_no_exceptions_amended AxiomValidator.default exIndepCandidate
    (some [exGrainOther])
    (by
      intro g hg idt hidt
      rw [Option.getD_some, List.mem_singleton] at hg
      subst hg
      injection hidt with hidt'
      subst hidt'
      decide)

theorem getBit_eq_zero_or_one (arr : List ℕ) (pos : ℕ) :
    getBit arr pos = 0 ∨ getBit arr pos = 1 := by
  rw [getBit_eq_ite]
  split <;> simp

/-- `crystallize_grain` on successfully inferred weights, with every
assembled field spelled out. -/
theorem crystallizeGrain_eq_some (sha : String → String) (c : TernaryCrush)
    (p : PhantomCandidate) (v : Option (List (List ℚ)))
    (ax : Option (List String)) (ws : List TernaryWeight)
    (hw : inferWeights c p v = some ws) :
    crystallizeGrain sha c p v ax = some
      { grainId := generateGrainId sha p
        sourcePhantomId := p.phantomId
        cartridgeId := p.cartridgeId
        numBits := c.numBits
        bitsPositive := ws.countP fun w => w.value = 1
        bitsNegative := ws.countP fun w => w.value = -1
        bitsVoid := (c.numBits : ℤ) - (ws.countP fun w => w.value = 1)
          - (ws.countP fun w => w.value = -1)
        axiomIds := ax.getD []
        evidenceHash := generateEvidenceHash sha p ws
        internalHamming := calculateInternalHamming ws
        weightSkew := calculateWeightSkew (ws.countP fun w => w.value = 1)
          (ws.countP fun w => w.value = -1)
        avgConfidence := p.avgConfidence
        observationCount := p.hitCount
        bitArrayPlus := (sliceToBits c ws).1
        bitArrayMinus := (sliceToBits c ws).2
        epistemicLevel := p.epistemicLevel } := by
  unfold crystallizeGrain
  rw [hw]

theorem crystallizeGrain_eq_none (sha : String → String) (c : TernaryCrush)
    (p : PhantomCandidate) (v : Option (List (List ℚ)))
    (ax : Option (List String)) (hw : inferWeights c p v = none) :
    crystallizeGrain sha c p v ax = none := by
  unfold crystallizeGrain
  rw [hw]

/-- C1: for a ternary weight sequence with exactly one weight per position
below `num_bits`, `bits_to_weights ∘ slice_to_bits` reproduces the ternary
value at every position, and the reconstructed confidence is 1.0 at every
non-void position and 0.0 at every void position, whatever the original
confidences were. -/
theorem claim_C1_roundtrip (c : TernaryCrush) (W : List TernaryWeight)
    (hpos : ∀ w ∈ W, w.position < c.numBits)
    (hval : ∀ w ∈ W, w.value = 1 ∨ w.value = -1 ∨ w.value = 0)
    (hone : ∀ p < c.numBits, W.countP (fun w => w.position = p) = 1) :
    (bitsToWeights c (sliceToBits c W).1 (sliceToBits c W).2).length
      = c.numBits
    ∧ ∀ w ∈ W,
      (bitsToWeights c (sliceToBits c W).1 (sliceToBits c W).2)[w.position]?
        = some ⟨w.position, w.value, if w.value = 0 then 0 else 1, []⟩ := by
  refine ⟨bitsToWeights_length .., ?_⟩
  intro w hw
  have hp : w.position < c.numBits := hpos w hw
  have huniq := countP_position_unique (hone w.position hp)
  rw [bitsToWeights_getElem? c _ _ hp]
  have hposiff := sliceToBits_pos_iff c W hpos w.position
  have hnegiff := sliceToBits_neg_iff c W hpos w.position
  rcases hval w hw with hv | hv | hv
  · have hbp : getBit (sliceToBits c W).1 w.position = 1 :=
      hposiff.mpr ⟨w, hw, rfl, hv⟩
    simp [hbp, hv]
  · have hbp : getBit (sliceToBits c W).1 w.position = 0 := by
      rcases getBit_eq_zero_or_one (sliceToBits c W).1 w.position with h | h
      · exact h
      · obtain ⟨w', hw', hp', hv'⟩ := hposiff.mp h
        rw [huniq w' hw' hp' w hw rfl] at hv'
        rw [hv'] at hv
        exact absurd hv (by decide)
    have hbn : getBit (sliceToBits c W).2 w.position = 1 :=
      hnegiff.mpr ⟨w, hw, rfl, hv⟩
    simp [hbp, hbn, hv]
  · have hbp : getBit (sliceToBits c W).1 w.position = 0 := by
      rcases getBit_eq_zero_or_one (sliceToBits c W).1 w.position with h | h
      · exact h
      · obtain ⟨w', hw', hp', hv'⟩ := hposiff.mp h
        rw [huniq w' hw' hp' w hw rfl] at hv'
        rw [hv'] at hv
        exact absurd hv (by decide)
    have hbn : getBit (sliceToBits c W).2 w.position = 0 := by
      rcases getBit_eq_zero_or_one (sliceToBits c W).2 w.position with h | h
      · exact h
      · obtain ⟨w', hw', hp', hv'⟩ := hnegiff.mp h
        rw [huniq w' hw' hp' w hw rfl] at hv'
        rw [hv'] at hv
        exact absurd hv (by decide)
    simp [hbp, hbn, hv]

/-- A small crusher and an unordered 4-position ternary weight sequence
used to witness the round-trip. -/
def exCrush4 : TernaryCrush := ⟨4, 7/10⟩

def exWeights4 : List TernaryWeight :=
  [⟨2, -1, 1/2, []⟩, ⟨0, 1, 1/3, []⟩, ⟨1, 0, 9/10, ["obs"]⟩, ⟨3, 1, 0, []⟩]

/-- Witness for C1 at a concrete input: the 4-bit crusher on an unordered
weight sequence covering every position exactly once. -/
theorem claim_C1_roundtrip_witness :
    (bitsToWeights exCrush4 (sliceToBits exCrush4 exWeights4).1
      (sliceToBits exCrush4 exWeights4).2).length = exCrush4.numBits
    ∧ ∀ w ∈ exWeights4,
      (bitsToWeights exCrush4 (sliceToBits exCrush4 exWeights4).1
        (sliceToBits exCrush4 exWeights4).2)[w.position]?
        = some ⟨w.position, w.value, if w.value = 0 then 0 else 1, []⟩ :=
  claim_C1_roundtrip exCrush4 exWeights4 (by decide) (by decide) (by decide)

/-- C2: every grain `crystallize_grain` returns — with or without explicit
observation vectors — satisfies `bits_positive + bits_negative + bits_void
= num_bits`, and no bit position has both the plus-plane bit and the
minus-plane bit set (both unset encodes void). -/
theorem claim_C2_grain_invariants (sha : String → String) (c : TernaryCrush)
    (p : PhantomCandidate) (v : Option (List (List ℚ)))
    (ax : Option (List String)) :
    (crystallizeGrain sha c p v ax).elim True fun g =>
      (g.bitsPositive : ℤ) + g.bitsNegative + g.bitsVoid = (c.numBits : ℤ)
      ∧ ∀ pos : ℕ,
        ¬(getBit g.bitArrayPlus pos = 1 ∧ getBit g.bitArrayMinus pos = 1) := by
  match hw : inferWeights c p v with
  | none =>
    rw [crystallizeGrain_eq_none sha c p v ax hw]
    exact trivial
  | some ws =>
    obtain ⟨hposlt, hvaleq⟩ := inferWeights_shape c p v ws hw
    rw [crystallizeGrain_eq_some sha c p v ax ws hw]
    refine ⟨by push_cast; ring, ?_⟩
    rintro pos ⟨h1, h2⟩
    obtain ⟨w1, hw1, hp1, hv1⟩ := (sliceToBits_pos_iff c ws hposlt pos).mp h1
    obtain ⟨w2, hw2, hp2, hv2⟩ := (sliceToBits_neg_iff c ws hposlt pos).mp h2
    have := hvaleq w1 hw1 w2 hw2 (hp1.trans hp2.symm)
    rw [hv1, hv2] at this
    exact absurd this (by decide)

theorem inferSynthetic_length (c : TernaryCrush) (p : PhantomCandidate) :
    (inferSynthetic c p).length = c.numBits := by
  simp only [inferSynthetic, List.length_append, List.length_map,
    List.length_range, List.length_range']
  omega

theorem inferSynthetic_getElem? (c : TernaryCrush) (p : PhantomCandidate)
    {i : ℕ} (hi : i < c.numBits) :
    ∃ w : TernaryWeight, (inferSynthetic c p)[i]? = some w ∧
      w.position = i ∧
      w.value = (if i < c.numBits * 30 / 100 then 1
        else if i < c.numBits * 30 / 100 + c.numBits * 20 / 100 then -1
        else 0) := by
  simp only [inferSynthetic]
  by_cases h2 : i < c.numBits * 30 / 100 + c.numBits * 20 / 100
  · rw [List.getElem?_append_left (by
      simp only [List.length_append, List.length_map, List.length_range,
        List.length_range']
      omega)]
    by_cases h1 : i < c.numBits * 30 / 100
    · rw [List.getElem?_append_left (by
        simp only [List.length_map, List.length_range]; exact h1)]
      rw [List.getElem?_map, List.getElem?_range h1, Option.map_some']
      exact ⟨_, rfl, rfl, by rw [if_pos h1]⟩
    · rw [List.getElem?_append_right (by
        simp only [List.length_map, List.length_range]; omega)]
      simp only [List.length_map, List.length_range]
      rw [List.getElem?_map,
        List.getElem?_eq_getElem (by
          simp only [List.length_range']; omega),
        List.getElem_range', Option.map_some']
      refine ⟨_, rfl, ?_, ?_⟩
      · show c.numBits * 30 / 100 + 1 * (i - c.numBits * 30 / 100) = i
        omega
      · show (-1 : ℤ) = _
        rw [if_neg h1, if_pos h2]
  · have h1 : ¬ i < c.numBits * 30 / 100 := by omega
    rw [List.getElem?_append_right (by
      simp only [List.length_append, List.length_map, List.length_range,
        List.length_range']
      omega)]
    simp only [List.length_append, List.length_map, List.length_range,
      List.length_range']
    rw [List.getElem?_map,
      List.getElem?_eq_getElem (by
        simp only [List.length_range']; omega),
      List.getElem_range', Option.map_some']
    refine ⟨_, rfl, ?_, ?_⟩
    · show c.numBits * 30 / 100 + c.numBits * 20 / 100 +
        1 * (i - (c.numBits * 30 / 100 + c.numBits * 20 / 100)) = i
      omega
    · show (0 : ℤ) = _
      rw [if_neg h1, if_neg h2]

/-- C7: with a non-empty observation-vector list, `infer_weights` raises
the fatal input-validation error if and only if some vector's length
differs from `num_bits`; in that case no weight list is returned and
`crystallize_grain` assembles no grain. -/
theorem claim_C7_vector_mismatch (sha : String → String) (c : TernaryCrush)
    (p : PhantomCandidate) (vs : List (List ℚ)) (ax : Option (List String))
    (hvs : vs ≠ []) :
    (inferWeights c p (some vs) = none ↔ ∃ v ∈ vs, v.length ≠ c.numBits)
    ∧ ((∃ v ∈ vs, v.length ≠ c.numBits) →
        crystallizeGrain sha c p (some vs) ax = none) := by
  have hiff : inferWeights c p (some vs) = none ↔
      ∃ v ∈ vs, v.length ≠ c.numBits := by
    rw [inferWeights, if_pos hvs, inferFromVectors, if_neg hvs]
    by_cases hany : vs.any fun v => v.length ≠ c.numBits
    · rw [if_pos hany]
      simp only [List.any_eq_true, decide_eq_true_eq] at hany
      exact ⟨fun _ => hany, fun _ => rfl⟩
    · rw [if_neg hany]
      simp only [List.any_eq_true, decide_eq_true_eq] at hany
      exact ⟨fun h => absurd h (by simp), fun h => absurd h hany⟩
  exact ⟨hiff, fun hex =>
    crystallizeGrain_eq_none sha c p (some vs) ax (hiff.mpr hex)⟩

/-- A stand-in digest function for the concrete witnesses. -/
def shaEx : String → String := fun s => s

/-- An observation-vector list with a wrong-sized vector. -/
def exBadVectors : List (List ℚ) := [[1, 1]]

/-- Witness for C7 at a concrete input: a single 2-dimensional vector
against the 4-bit crusher is rejected with no partial result. -/
theorem claim_C7_vector_mismatch_witness :
    (inferWeights exCrush4 exPersistPass (some exBadVectors) = none ↔
      ∃ v ∈ exBadVectors, v.length ≠ exCrush4.numBits)
    ∧ ((∃ v ∈ exBadVectors, v.length ≠ exCrush4.numBits) →
        crystallizeGrain shaEx exCrush4 exPersistPass (some exBadVectors)
          none = none) :=
  claim_C7_vector_mismatch shaEx exCrush4 exPersistPass exBadVectors none
    (by decide)

/-- C10: an empty observation-vector list is treated exactly like passing
no vectors at all — `infer_weights` silently falls back to the synthetic
heuristic (so it neither raises nor, for a positive bit budget, returns an
empty weight list), which forces the first `int(num_bits * 0.30)`
positions to +1, the next `int(num_bits * 0.20)` positions to -1, and all
remaining positions to void, for every candidate. -/
theorem claim_C10_empty_vectors (sha : String → String) (c : TernaryCrush)
    (p : PhantomCandidate) (ax : Option (List String))
    (hnb : 0 < c.numBits) :
    inferWeights c p (some []) = some (inferSynthetic c p)
    ∧ inferWeights c p none = some (inferSynthetic c p)
    ∧ crystallizeGrain sha c p (some []) ax = crystallizeGrain sha c p none ax
    ∧ inferSynthetic c p ≠ []
    ∧ (inferSynthetic c p).length = c.numBits
    ∧ ∀ i < c.numBits, ∃ w : TernaryWeight,
        (inferSynthetic c p)[i]? = some w ∧ w.position = i ∧
        w.value = (if i < c.numBits * 30 / 100 then 1
          else if i < c.numBits * 30 / 100 + c.numBits * 20 / 100 then -1
          else 0) := by
  have h1 : inferWeights c p (some []) = some (inferSynthetic c p) := by
    rw [inferWeights, if_neg (by simp)]
  refine ⟨h1, rfl, ?_, ?_, inferSynthetic_length c p, ?_⟩
  · rw [crystallizeGrain_eq_some sha c p (some []) ax _ h1,
      crystallizeGrain_eq_some sha c p none ax _ rfl]
  · intro hnil
    have := inferSynthetic_length c p
    rw [hnil] at this
    simp at this
    omega
  · intro i hi
    exact inferSynthetic_getElem? c p hi

/-- A 10-bit crusher for the small concrete grains. -/
def exCrush10 : TernaryCrush := ⟨10, 7/10⟩

/-- Witness for C10 at a concrete input: the 10-bit crusher on the 5-hit
candidate. -/
theorem claim_C10_empty_vectors_witness :
    inferWeights exCrush10 exPersistPass (some []) =
      some (inferSynthetic exCrush10 exPersistPass)
    ∧ inferWeights exCrush10 exPersistPass none =
        some (inferSynthetic exCrush10 exPersistPass)
    ∧ crystallizeGrain shaEx exCrush10 exPersistPass (some []) none =
        crystallizeGrain shaEx exCrush10 exPersistPass none none
    ∧ inferSynthetic exCrush10 exPersistPass ≠ []
    ∧ (inferSynthetic exCrush10 exPersistPass).length = exCrush10.numBits
    ∧ ∀ i < exCrush10.numBits, ∃ w : TernaryWeight,
        (inferSynthetic exCrush10 exPersistPass)[i]? = some w ∧
        w.position = i ∧
        w.value = (if i < exCrush10.numBits * 30 / 100 then 1
          else if i < exCrush10.numBits * 30 / 100 +
            exCrush10.numBits * 20 / 100 then -1
          else 0) :=
  claim_C10_empty_vectors shaEx exCrush10 exPersistPass none (by decide)

theorem avgConfidence_congr {p q : PhantomCandidate}
    (h : p.confidenceScores = q.confidenceScores) :
    p.avgConfidence = q.avgConfidence := by
  unfold PhantomCandidate.avgConfidence
  rw [h]

theorem inferWeights_congr (c : TernaryCrush) {p q : PhantomCandidate}
    (hf : p.factIds = q.factIds)
    (hc : p.confidenceScores = q.confidenceScores)
    (v : Option (List (List ℚ))) :
    inferWeights c p v = inferWeights c q v := by
  have hsyn : inferSynthetic c p = inferSynthetic c q := by
    unfold inferSynthetic
    rw [hf, avgConfidence_congr hc]
  match v with
  | none => exact congrArg some hsyn
  | some vs =>
    rw [inferWeights, inferWeights]
    split
    · rw [hc]
    · exact congrArg some hsyn

theorem evidenceOf_congr {p q : PhantomCandidate}
    (hid : p.phantomId = q.phantomId) (hf : p.factIds = q.factIds)
    (hh : p.hitCount = q.hitCount)
    (hc : p.confidenceScores = q.confidenceScores)
    (hq : p.queryConcepts = q.queryConcepts) :
    evidenceOf p = evidenceOf q := by
  unfold evidenceOf
  rw [hid, hf, hh, hq, avgConfidence_congr hc]

/-- C8: two crystallizations of candidates that differ only in
`created_at` (same explicit vectors) produce the same `evidence_hash` —
the full digest of the canonical key-ordered serialization of phantom id,
sorted fact ids, hit count, average confidence and query concepts, which
never reads `created_at` — while `grain_id` is the first 16 hex characters
of the digest of `phantom_id + ":" + created_at`, whose input differs for
a different `created_at`, so distinct truncated digests give distinct
grain ids. -/
theorem claim_C8_fingerprint (sha : String → String) (c : TernaryCrush)
    (p₁ p₂ : PhantomCandidate) (v : Option (List (List ℚ)))
    (ax : Option (List String))
    (hid : p₁.phantomId = p₂.phantomId) (hf : p₁.factIds = p₂.factIds)
    (hh : p₁.hitCount = p₂.hitCount)
    (hc : p₁.confidenceScores = p₂.confidenceScores)
    (hq : p₁.queryConcepts = p₂.queryConcepts) :
    (crystallizeGrain sha c p₁ v ax).map (·.evidenceHash)
      = (crystallizeGrain sha c p₂ v ax).map (·.evidenceHash)
    ∧ (∀ w, generateEvidenceHash sha p₁ w
        = sha (dumpsEvidence (evidenceOf p₁)))
    ∧ generateGrainId sha p₁
        = (sha (p₁.phantomId ++ ":" ++ p₁.createdAt)).take 16
    ∧ (p₁.createdAt ≠ p₂.createdAt →
        p₁.phantomId ++ ":" ++ p₁.createdAt
          ≠ p₂.phantomId ++ ":" ++ p₂.createdAt)
    ∧ ((sha (p₁.phantomId ++ ":" ++ p₁.createdAt)).take 16
        ≠ (sha (p₂.phantomId ++ ":" ++ p₂.createdAt)).take 16 →
        generateGrainId sha p₁ ≠ generateGrainId sha p₂) := by
  have hev : evidenceOf p₁ = evidenceOf p₂ :=
    evidenceOf_congr hid hf hh hc hq
  have hiw : inferWeights c p₁ v = inferWeights c p₂ v :=
    inferWeights_congr c hf hc v
  refine ⟨?_, fun w => rfl, rfl, ?_, fun hne16 heq => hne16 heq⟩
  · match hival : inferWeights c p₂ v with
    | none =>
      rw [crystallizeGrain_eq_none sha c p₁ v ax (hiw.trans hival),
        crystallizeGrain_eq_none sha c p₂ v ax hival]
    | some ws =>
      rw [crystallizeGrain_eq_some sha c p₁ v ax ws (hiw.trans hival),
        crystallizeGrain_eq_some sha c p₂ v ax ws hival,
        Option.map_some', Option.map_some']
      show some (generateEvidenceHash sha p₁ ws)
        = some (generateEvidenceHash sha p₂ ws)
      unfold generateEvidenceHash
      rw [hev]
  · intro hca heq
    apply hca
    rw [hid] at heq
    have hdata := congrArg String.data heq
    simp only [String.data_append] at hdata
    have := List.append_cancel_left hdata
    exact String.ext this

/-- Two candidates identical except for `created_at`. -/
def exFingerA : PhantomCandidate :=
  ⟨"ph", "cart", {1, 2}, 5, [4/5, 4/5, 4/5, 4/5, 4/5], ["a"], 0,
   "locked", "a1", 0⟩

def exFingerB : PhantomCandidate :=
  ⟨"ph", "cart", {1, 2}, 5, [4/5, 4/5, 4/5, 4/5, 4/5], ["a"], 0,
   "locked", "b2", 0⟩

/-- Witness for C8 at a concrete input: the two candidates differing only
in `created_at`, with a digest stand-in that keeps their truncated hashes
distinct. -/
theorem claim_C8_fingerprint_witness :
    (crystallizeGrain shaEx exCrush10 exFingerA none none).map
        (·.evidenceHash)
      = (crystallizeGrain shaEx exCrush10 exFingerB none none).map
        (·.evidenceHash)
    ∧ (∀ w, generateEvidenceHash shaEx exFingerA w
        = shaEx (dumpsEvidence (evidenceOf exFingerA)))
    ∧ generateGrainId shaEx exFingerA
        = (shaEx (exFingerA.phantomId ++ ":" ++ exFingerA.createdAt)).take 16
    ∧ (exFingerA.createdAt ≠ exFingerB.createdAt →
        exFingerA.phantomId ++ ":" ++ exFingerA.createdAt
          ≠ exFingerB.phantomId ++ ":" ++ exFingerB.createdAt)
    ∧ ((shaEx (exFingerA.phantomId ++ ":" ++ exFingerA.createdAt)).take 16
        ≠ (shaEx (exFingerB.phantomId ++ ":" ++ exFingerB.createdAt)).take 16 →
        generateGrainId shaEx exFingerA ≠ generateGrainId shaEx exFingerB) :=
  claim_C8_fingerprint shaEx exCrush10 exFingerA exFingerB none none
    rfl rfl rfl rfl rfl

/-- The coded `weight_skew` is the population coefficient of variation
inflated by a factor √2, because `statistics.stdev` divides by `n - 1`
(here 1) instead of `n` (here 2). -/
theorem calculateWeightSkew_eq_sqrt_two_mul (pc nc : ℕ) :
    calculateWeightSkew pc nc = Real.sqrt 2 * specPopulationCV pc nc := by
  unfold calculateWeightSkew specPopulationCV
  by_cases h : pc = 0 ∧ nc = 0
  · rw [if_pos h, if_pos h, mul_zero]
  · rw [if_neg h, if_neg h]
    have hsum : 0 < pc + nc := by
      rcases Nat.eq_zero_or_pos (pc + nc) with h0 | h0
      · exact absurd ⟨by omega, by omega⟩ h
      · exact h0
    have hm : (0 : ℝ) < ((pc : ℝ) + (nc : ℝ)) / 2 := by
      have hc : (0 : ℝ) < (pc : ℝ) + (nc : ℝ) := by exact_mod_cast hsum
      linarith
    rw [if_neg (ne_of_gt hm), if_neg (ne_of_gt hm), if_pos hm]
    have hkey : Real.sqrt (((pc : ℝ) - ((pc : ℝ) + (nc : ℝ)) / 2) ^ 2 +
        ((nc : ℝ) - ((pc : ℝ) + (nc : ℝ)) / 2) ^ 2) =
        Real.sqrt 2 * Real.sqrt ((((pc : ℝ) - ((pc : ℝ) + (nc : ℝ)) / 2) ^ 2 +
          ((nc : ℝ) - ((pc : ℝ) + (nc : ℝ)) / 2) ^ 2) / 2) := by
      rw [← Real.sqrt_mul (by norm_num : (0 : ℝ) ≤ 2)]
      congr 1
      ring
    rw [hkey, mul_div_assoc]

/-- C9 (amended): for every grain `crystallize_grain` produces,
`weight_skew` is the sample-standard-deviation coefficient of variation of
the two counts — that is, √2 times the population coefficient of
variation of positive_count and negative_count — and 0 when both counts
are zero. -/
theorem claim_C9_weight_skew_amended (sha : String → String)
    (c : TernaryCrush) (p : PhantomCandidate) (v : Option (List (List ℚ)))
    (ax : Option (List String)) :
    (crystallizeGrain sha c p v ax).elim True fun g =>
      g.weightSkew
        = Real.sqrt 2 * specPopulationCV g.bitsPositive g.bitsNegative := by
  match hw : inferWeights c p v with
  | none =>
    rw [crystallizeGrain_eq_none sha c p v ax hw]
    exact trivial
  | some ws =>
    rw [crystallizeGrain_eq_some sha c p v ax ws hw]
    exact calculateWeightSkew_eq_sqrt_two_mul _ _

/-- C9 counterexample: the 10-bit synthetic grain has positive_count 3 and
negative_count 2, but its `weight_skew` is √(1/2) / 2.5, not the claimed
population coefficient of variation √(1/4) / 2.5 = 0.2 — the code uses
the sample standard deviation (`statistics.stdev`), not the population
one. -/
theorem claim_C9_counterexample :
    (crystallizeGrain shaEx exCrush10 exPersistPass none none).map
      (fun g => (g.bitsPositive, g.bitsNegative)) = some (3, 2)
    ∧ (crystallizeGrain shaEx exCrush10 exPersistPass none none).map
      GrainMetadata.weightSkew ≠ some (specPopulationCV 3 2) := by
  have hcg := crystallizeGrain_eq_some shaEx exCrush10 exPersistPass
    none none _ rfl
  have hc1 : (inferSynthetic exCrush10 exPersistPass).countP
      (fun w => w.value = 1) = 3 := by decide
  have hc2 : (inferSynthetic exCrush10 exPersistPass).countP
      (fun w => w.value = -1) = 2 := by decide
  constructor
  · rw [hcg, Option.map_some']
    show some ((inferSynthetic exCrush10 exPersistPass).countP
        (fun w => w.value = 1),
      (inferSynthetic exCrush10 exPersistPass).countP
        (fun w => w.value = -1)) = some (3, 2)
    rw [hc1, hc2]
  · rw [hcg, Option.map_some']
    show some (calculateWeightSkew
      ((inferSynthetic exCrush10 exPersistPass).countP
        (fun w => w.value = 1))
      ((inferSynthetic exCrush10 exPersistPass).countP
        (fun w => w.value = -1))) ≠ some (specPopulationCV 3 2)
    rw [hc1, hc2]
    intro heq
    have hval := Option.some_injective _ heq
    have hA : calculateWeightSkew 3 2 = Real.sqrt (1/2) / (5/2) := by
      unfold calculateWeightSkew
      rw [if_neg (by simp)]
      have hm5 : ((3 : ℕ) : ℝ) + ((2 : ℕ) : ℝ) = 5 := by norm_num
      rw [if_neg (by rw [hm5]; norm_num), if_pos (by rw [hm5]; norm_num),
        hm5]
      rw [show (((3 : ℕ) : ℝ) - 5/2) ^ 2 + (((2 : ℕ) : ℝ) - 5/2) ^ 2
        = (1 : ℝ)/2 by norm_num]
    have hB : specPopulationCV 3 2 = 1/5 := by
      unfold specPopulationCV
      rw [if_neg (by simp)]
      have hm5 : ((3 : ℕ) : ℝ) + ((2 : ℕ) : ℝ) = 5 := by norm_num
      rw [if_neg (by rw [hm5]; norm_num), hm5]
      rw [show ((((3 : ℕ) : ℝ) - 5/2) ^ 2 + (((2 : ℕ) : ℝ) - 5/2) ^ 2) / 2
        = ((1 : ℝ)/2) ^ 2 by norm_num]
      rw [Real.sqrt_sq (by norm_num : (0 : ℝ) ≤ 1/2)]
      norm_num
    rw [hA, hB] at hval
    have hsq : Real.sqrt (1/2) = 1/2 := by
      field_simp at hval
    have := congrArg (fun x : ℝ => x ^ 2) hsq
    simp only at this
    rw [Real.sq_sqrt (by norm_num : (0 : ℝ) ≤ 1/2)] at this
    norm_num at this

end GiantMess
